import Mathlib

/-!
Verification of the partition-optimization notebooks
(`optimization/graph_partition.ipynb`, `optimization/partition.ipynb`).

The notebooks' own code is the brute-force exact solver of
`graph_partition.ipynb` (`brute_force`, with its helper `bitfield`) and the
try/except control flow around the optional `ClassicalCPLEX` solver in
`partition.ipynb`.  The objective functions they call
(`graph_partition.objective_value`, `partition.partition_value`) live in the
external qiskit library and are modelled here from the spec and from the
notebooks' own documentation and printed outputs.

Machine reals appear only as exact integers in these notebooks (integer edge
weights, integer number lists, integer bit vectors), so assignments, weights
and objective values are embedded as `ℤ`; numpy's `np.inf` sentinel used by
`brute_force` is embedded as `none` in `Option ℤ`.
-/

/-- Entry `w[i][j]` of an adjacency matrix stored as a list of rows,
with `0` outside the stored entries (numpy indexing never goes out of
range in the notebook; the default only totalises the function). -/
def wEntry (w : List (List ℤ)) (i j : ℕ) : ℤ :=
  (w.getD i []).getD j 0

/-- Modelled from the spec: `qiskit.optimization.applications.ising.graph_partition.objective_value`,
whose implementation is not under `src/`.  The notebook documents it as
"the number of crossing edges": edges are the nonzero entries of `w`, and
the numpy form `np.sum((w != 0) * np.outer(x, 1 - x))` counts the ordered
pairs `(i, j)` with `w[i][j] != 0`, `x[i] = 1` and `x[j] = 0`. -/
def objective_value (x : List ℤ) (w : List (List ℤ)) : ℤ :=
  ∑ i ∈ Finset.range w.length, ∑ j ∈ Finset.range w.length,
    (if wEntry w i j ≠ 0 then 1 else 0) * (x.getD i 0 * (1 - x.getD j 0))

/-- Modelled from the spec: `qiskit.optimization.applications.ising.partition.partition_value`,
whose implementation is not under `src/`.  The spec defines the number
partition objective as the square of the difference of the two subset sums,
computed as `np.sum([number_list[i] * (1 - 2 * x[i]) for i in range(n)]) ** 2`
(spin `1 - 2 b` maps bit 0 to `+1` and bit 1 to `-1`). -/
def partition_value (x : List ℤ) (number_list : List ℤ) : ℤ :=
  (∑ i ∈ Finset.range number_list.length,
    number_list.getD i 0 * (1 - 2 * x.getD i 0)) ^ 2

/-- The notebook's `bitfield(n, L)`: the digits of `np.binary_repr(n, L)`,
most significant first.  Agrees with numpy for every `n < 2 ^ L`, which
covers every index produced by the `brute_force` loop. -/
def bitfield (n L : ℕ) : List ℤ :=
  (List.range L).map (fun k => ((n / 2 ^ (L - 1 - k) % 2 : ℕ) : ℤ))

/-- The notebook's `np.count_nonzero(cur)`: how many entries of the
assignment are nonzero (for bit vectors, the number of ones). -/
def count_nonzero (x : List ℤ) : ℕ :=
  (x.filter (fun b => b != 0)).length

/-- One iteration of the `brute_force` loop of `graph_partition.ipynb`:
build `cur = bitfield(i, L)`, `continue` when `cur` is not balanced,
otherwise evaluate the objective and keep the smaller value.  The running
minimum starts at `np.inf`, embedded as `none`; the comparison
`cur_v < np.inf` always succeeds, which is the `none` branch. -/
def brute_force_step (w : List (List ℤ)) (L : ℕ) (minimal_v : Option ℤ) (i : ℕ) : Option ℤ :=
  let cur := bitfield i L
  if count_nonzero cur * 2 ≠ L then minimal_v
  else
    let cur_v := objective_value cur w
    match minimal_v with
    | none => some cur_v
    | some m => if cur_v < m then some cur_v else some m

/-- The notebook's `brute_force()`: fold the loop body over
`i in range(2 ** L)` starting from `minimal_v = np.inf` (`none`). -/
def brute_force (w : List (List ℤ)) (L : ℕ) : Option ℤ :=
  (List.range (2 ^ L)).foldl (brute_force_step w L) none

/-- The candidates on which `brute_force` evaluates the objective:
all bit strings of length `L` in increasing integer order, keeping
exactly the balanced ones. -/
def balanced_candidates (L : ℕ) : List (List ℤ) :=
  ((List.range (2 ^ L)).map (fun i => bitfield i L)).filter
    (fun c => count_nonzero c * 2 == L)

/-- Minimum of an optional running minimum and an optional list minimum;
`none` is the `np.inf` identity. -/
def optMin (a b : Option ℤ) : Option ℤ :=
  match a, b with
  | none, b => b
  | some x, none => some x
  | some x, some y => some (min x y)

/-- The 4-node weight matrix printed by `graph_partition.ipynb`
(`random_graph(4, edge_prob=0.8, weight_range=10)` under seed 100). -/
def w_example : List (List ℤ) :=
  [[0, 4, 5, 3], [4, 0, -5, 7], [5, -5, 0, 0], [3, 7, 0, 0]]

/-- The number list printed by `partition.ipynb` when loading
`sample.partition`. -/
def sample_numbers : List ℤ := [1, 3, 4, 7, 10, 13, 15, 16]

/-- The assignment flipping every bit: `y[j] = 1 - x[j]`, from the
notebook's markdown note on complement solutions. -/
def complement (x : List ℤ) : List ℤ := x.map (fun b => 1 - b)

/-- Written from the spec's words, for comparison with `partition_value`:
the sum of the numbers whose assignment bit equals `b`. -/
def subset_sum (b : ℤ) (x number_list : List ℤ) : ℤ :=
  ∑ i ∈ Finset.range number_list.length,
    if x.getD i 0 = b then number_list.getD i 0 else 0

/-- Modelled from the spec: the Exact Solver in number-partition mode
(no balance constraint), absent from `partition.ipynb` itself: enumerate
all `2 ^ n` bit strings in increasing integer order and return the
minimal `partition_value`. -/
def partition_brute_force (ns : List ℤ) : Option ℤ :=
  (((List.range (2 ^ ns.length)).map (fun i => bitfield i ns.length)).map
    (fun a => partition_value a ns)).min?

/-- The `brute_force` loop body instrumented with the list of assignments on
which `objective_value` is actually called: the pair `(minimal_v, trace)`
steps exactly as the source loop, and `cur` is appended to the trace exactly
when the `continue` is not taken. -/
def brute_force_trace_step (w : List (List ℤ)) (L : ℕ) (s : Option ℤ × List (List ℤ))
    (i : ℕ) : Option ℤ × List (List ℤ) :=
  let cur := bitfield i L
  if count_nonzero cur * 2 ≠ L then s
  else
    let cur_v := objective_value cur w
    (match s.1 with
     | none => some cur_v
     | some m => if cur_v < m then some cur_v else some m,
     s.2 ++ [cur])

/-- The instrumented `brute_force`: its first component is the returned
minimum, its second the assignments evaluated by the objective. -/
def brute_force_trace (w : List (List ℤ)) (L : ℕ) : Option ℤ × List (List ℤ) :=
  (List.range (2 ^ L)).foldl (brute_force_trace_step w L) (none, [])

/-- Outcome of one solver cell of `partition.ipynb`: either the named solver
ran, or the cell caught an exception and only printed its message. -/
inductive SolverOutcome where
  | ran : String → SolverOutcome
  | skippedMsg : String → SolverOutcome
deriving DecidableEq

/-- Modelled from the spec: the body of the `try` block of `partition.ipynb`,
importing and running the optional `ClassicalCPLEX` solver (the solver itself
is an external collaborator, not under `src/`).  When CPLEX is not installed
the `import` raises, embedded as the `Except.error` branch. -/
def cplex_cell_body (available : Bool) : Except String SolverOutcome :=
  if available then Except.ok (SolverOutcome.ran "ClassicalCPLEX")
  else Except.error "No module named cplex"

/-- The notebook's `except Exception as ex: print(str(ex))`: any raised
exception is caught locally, its message printed, and the cell completes
normally instead of propagating the error. -/
def try_except_cell (body : Except String SolverOutcome) : SolverOutcome :=
  match body with
  | Except.ok r => r
  | Except.error ex => SolverOutcome.skippedMsg ex

/-- The sequence of solver cells executed by `partition.ipynb`:
`NumPyMinimumEigensolver`, then the try/except-wrapped `ClassicalCPLEX`
cell, then `VQE`. -/
def partition_notebook_run (cplex_available : Bool) : List SolverOutcome :=
  [SolverOutcome.ran "NumPyMinimumEigensolver",
   try_except_cell (cplex_cell_body cplex_available),
   SolverOutcome.ran "VQE"]

/-! ### Helper lemmas -/

theorem optMin_none_right (a : Option ℤ) : optMin a none = a := by
  cases a <;> rfl

theorem optMin_assoc (a b c : Option ℤ) :
    optMin (optMin a b) c = optMin a (optMin b c) := by
  cases a <;> cases b <;> cases c <;> simp [optMin, min_assoc]

theorem min?_cons_optMin (a : ℤ) (l : List ℤ) :
    (a :: l).min? = optMin (some a) l.min? := by
  cases h : l.min? <;> simp [List.min?_cons, h, optMin]

theorem min?_append_optMin (l1 l2 : List ℤ) :
    (l1 ++ l2).min? = optMin l1.min? l2.min? := by
  induction l1 with
  | nil => rfl
  | cons a l1 ih =>
    rw [List.cons_append, min?_cons_optMin, ih, min?_cons_optMin, optMin_assoc]

theorem brute_force_step_eq (w : List (List ℤ)) (L : ℕ) (acc : Option ℤ) (i : ℕ) :
    brute_force_step w L acc i =
      if count_nonzero (bitfield i L) * 2 = L then
        optMin acc (some (objective_value (bitfield i L) w))
      else acc := by
  unfold brute_force_step
  by_cases h : count_nonzero (bitfield i L) * 2 = L
  · rw [if_neg (by simpa using h), if_pos h]
    cases acc with
    | none => rfl
    | some m =>
      simp only [optMin]
      by_cases hlt : objective_value (bitfield i L) w < m
      · rw [if_pos hlt]
        exact congrArg some (min_eq_right hlt.le).symm
      · rw [if_neg hlt]
        exact congrArg some (min_eq_left (le_of_not_lt hlt)).symm
  · rw [if_pos (by simpa using h), if_neg h]

theorem foldl_brute_force_step (w : List (List ℤ)) (L : ℕ) :
    ∀ (l : List ℕ) (acc : Option ℤ),
      l.foldl (brute_force_step w L) acc =
        optMin acc (((l.map (fun i => bitfield i L)).filter
          (fun c => count_nonzero c * 2 == L)).map
            (fun c => objective_value c w)).min? := by
  intro l
  induction l with
  | nil =>
    intro acc
    simp only [List.foldl_nil, List.map_nil, List.filter_nil, List.min?_nil, optMin_none_right]
  | cons i l ih =>
    intro acc
    rw [List.foldl_cons, ih, brute_force_step_eq, List.map_cons]
    by_cases h : count_nonzero (bitfield i L) * 2 = L
    · rw [if_pos h, List.filter_cons_of_pos (by simpa using h), List.map_cons,
        min?_cons_optMin, ← optMin_assoc]
    · rw [if_neg h, List.filter_cons_of_neg (by simpa using h)]

theorem brute_force_eq_min (w : List (List ℤ)) (L : ℕ) :
    brute_force w L =
      ((balanced_candidates L).map (fun c => objective_value c w)).min? := by
  unfold brute_force balanced_candidates
  rw [foldl_brute_force_step]
  rfl

theorem brute_force_trace_step_fst (w : List (List ℤ)) (L : ℕ)
    (s : Option ℤ × List (List ℤ)) (i : ℕ) :
    (brute_force_trace_step w L s i).1 = brute_force_step w L s.1 i := by
  unfold brute_force_trace_step brute_force_step
  by_cases h : count_nonzero (bitfield i L) * 2 ≠ L
  · simp only [if_pos h]
  · simp only [if_neg h]

theorem foldl_brute_force_trace_fst (w : List (List ℤ)) (L : ℕ) :
    ∀ (l : List ℕ) (s : Option ℤ × List (List ℤ)),
      (l.foldl (brute_force_trace_step w L) s).1 =
        l.foldl (brute_force_step w L) s.1 := by
  intro l
  induction l with
  | nil => intro s; rfl
  | cons i l ih =>
    intro s
    rw [List.foldl_cons, List.foldl_cons, ih, brute_force_trace_step_fst]

theorem foldl_brute_force_trace_balanced (w : List (List ℤ)) (L : ℕ) :
    ∀ (l : List ℕ) (s : Option ℤ × List (List ℤ)),
      (∀ c ∈ s.2, count_nonzero c * 2 = L) →
      ∀ c ∈ (l.foldl (brute_force_trace_step w L) s).2, count_nonzero c * 2 = L := by
  intro l
  induction l with
  | nil => intro s hs; exact hs
  | cons i l ih =>
    intro s hs
    rw [List.foldl_cons]
    apply ih
    intro c hc
    unfold brute_force_trace_step at hc
    by_cases h : count_nonzero (bitfield i L) * 2 ≠ L
    · rw [if_pos h] at hc
      exact hs c hc
    · rw [if_neg h] at hc
      rcases List.mem_append.mp hc with hmem | hmem
      · exact hs c hmem
      · rw [List.mem_singleton.mp hmem]
        exact not_not.mp h

/-! ### Claim theorems -/

/-- C1.  The brute-force Exact Solver enumerates all `2 ^ L` binary strings
of length `L` in increasing integer order, skips every assignment whose
number of ones is not exactly `L / 2`, evaluates the graph-partition
objective on the remaining candidates, and returns the minimum objective
value seen over them (`none` standing for the untouched `np.inf`). -/
theorem brute_force_returns_min_over_balanced (w : List (List ℤ)) (L : ℕ) :
    brute_force w L =
      ((((List.range (2 ^ L)).map (fun i => bitfield i L)).filter
        (fun c => count_nonzero c * 2 == L)).map
          (fun c => objective_value c w)).min? :=
  brute_force_eq_min w L

/-- C2.  On the 4-node weight matrix printed by the notebook, brute force
returns the minimal objective value `3`, and the balanced assignment
`[0, 1, 0, 1]` achieves that value. -/
theorem brute_force_w_example_eq_three :
    brute_force w_example 4 = some 3 ∧
    count_nonzero [0, 1, 0, 1] * 2 = 4 ∧
    objective_value [0, 1, 0, 1] w_example = 3 := by
  refine ⟨by decide, by decide, by decide⟩

/-- C5.  For a single vertex (`n = 1`) no balanced 50/50 split exists, and
the Exact Solver returns its `np.inf` sentinel (`none`) — reporting that no
valid balanced assignment was found — rather than silently returning `0`. -/
theorem brute_force_single_vertex_reports_none (w : List (List ℤ)) :
    brute_force w 1 = none ∧ brute_force w 1 ≠ some 0 := by
  have h : brute_force w 1 = none := by
    rw [brute_force_eq_min, show balanced_candidates 1 = [] from by decide]
    rfl
  exact ⟨h, by rw [h]; exact fun hc => Option.noConfusion hc⟩

/-- C9.  Invariant of the brute-force loop: every assignment on which the
graph-partition objective is evaluated is balanced (has exactly `L / 2`
ones); the instrumented fold records exactly those evaluations and computes
the same minimum as `brute_force`. -/
theorem brute_force_objective_only_on_balanced (w : List (List ℤ)) (L : ℕ) :
    (∀ c ∈ (brute_force_trace w L).2, count_nonzero c * 2 = L) ∧
    (brute_force_trace w L).1 = brute_force w L := by
  constructor
  · exact foldl_brute_force_trace_balanced w L (List.range (2 ^ L)) (none, [])
      (fun c hc => absurd hc (List.not_mem_nil c))
  · exact foldl_brute_force_trace_fst w L (List.range (2 ^ L)) (none, [])

theorem getD_complement (a : List ℤ) (i : ℕ) (h : i < a.length) :
    (complement a).getD i 0 = 1 - a.getD i 0 := by
  unfold complement
  rw [List.getD_eq_getElem?_getD, List.getElem?_map, List.getElem?_eq_getElem h,
    List.getD_eq_getElem?_getD, List.getElem?_eq_getElem h]
  rfl

theorem getD_mem (x : List ℤ) (i : ℕ) (h : i < x.length) : x.getD i 0 ∈ x := by
  rw [List.getD_eq_getElem?_getD, List.getElem?_eq_getElem h]
  exact List.getElem_mem h

/-- C3.  The number-partition objective is invariant under flipping every
bit of the assignment: complementary assignments describe the same
bipartition, so the signed subset-sum difference negates and its square is
unchanged. -/
theorem partition_value_complement_invariant (a number_list : List ℤ)
    (h : a.length = number_list.length) :
    partition_value a number_list = partition_value (complement a) number_list := by
  unfold partition_value
  have key : ∑ i ∈ Finset.range number_list.length,
        number_list.getD i 0 * (1 - 2 * (complement a).getD i 0)
      = -∑ i ∈ Finset.range number_list.length,
          number_list.getD i 0 * (1 - 2 * a.getD i 0) := by
    rw [← Finset.sum_neg_distrib]
    apply Finset.sum_congr rfl
    intro i hi
    rw [getD_complement a i (by rw [h]; exact Finset.mem_range.mp hi)]
    ring
  rw [key]
  ring

/-- C3 witness: the invariance applied to the concrete assignment `[0, 1]`
and number list `[9, 8]`. -/
theorem partition_value_complement_invariant_witness :
    ([(0 : ℤ), 1].length = [(9 : ℤ), 8].length) ∧
    partition_value [0, 1] [9, 8] = partition_value (complement [0, 1]) [9, 8] :=
  ⟨rfl, partition_value_complement_invariant [0, 1] [9, 8] rfl⟩

/-- C4.  For a symmetric square weight matrix the graph-partition objective
is invariant under flipping every bit of a balanced assignment: complements
select the transposed crossing pairs, which symmetry identifies. -/
theorem objective_value_complement_invariant (w : List (List ℤ)) (a : List ℤ)
    (hsq : ∀ row ∈ w, row.length = w.length)
    (hsym : ∀ i < w.length, ∀ j < w.length, wEntry w i j = wEntry w j i)
    (hlen : a.length = w.length)
    (hbal : count_nonzero a * 2 = w.length) :
    objective_value a w = objective_value (complement a) w := by
  unfold objective_value
  have step1 : ∑ i ∈ Finset.range w.length, ∑ j ∈ Finset.range w.length,
      (if wEntry w i j ≠ 0 then (1 : ℤ) else 0) *
        ((complement a).getD i 0 * (1 - (complement a).getD j 0))
      = ∑ i ∈ Finset.range w.length, ∑ j ∈ Finset.range w.length,
        (if wEntry w i j ≠ 0 then (1 : ℤ) else 0) *
          ((1 - a.getD i 0) * a.getD j 0) := by
    apply Finset.sum_congr rfl
    intro i hi
    apply Finset.sum_congr rfl
    intro j hj
    rw [getD_complement a i (by rw [hlen]; exact Finset.mem_range.mp hi),
        getD_complement a j (by rw [hlen]; exact Finset.mem_range.mp hj)]
    ring
  have step2 : ∑ i ∈ Finset.range w.length, ∑ j ∈ Finset.range w.length,
      (if wEntry w i j ≠ 0 then (1 : ℤ) else 0) *
        ((1 - a.getD i 0) * a.getD j 0)
      = ∑ i ∈ Finset.range w.length, ∑ j ∈ Finset.range w.length,
        (if wEntry w i j ≠ 0 then (1 : ℤ) else 0) *
          (a.getD i 0 * (1 - a.getD j 0)) := by
    rw [Finset.sum_comm]
    apply Finset.sum_congr rfl
    intro i hi
    apply Finset.sum_congr rfl
    intro j hj
    rw [hsym j (Finset.mem_range.mp hj) i (Finset.mem_range.mp hi)]
    ring
  exact (step1.trans step2).symm

/-- C4 witness: the invariance applied to the notebook's 4-node weight
matrix and the balanced assignment `[0, 1, 0, 1]`. -/
theorem objective_value_complement_invariant_witness :
    (∀ row ∈ w_example, row.length = w_example.length) ∧
    (∀ i < w_example.length, ∀ j < w_example.length,
      wEntry w_example i j = wEntry w_example j i) ∧
    [(0 : ℤ), 1, 0, 1].length = w_example.length ∧
    count_nonzero [0, 1, 0, 1] * 2 = w_example.length ∧
    objective_value [0, 1, 0, 1] w_example =
      objective_value (complement [0, 1, 0, 1]) w_example :=
  ⟨by decide, by decide, by decide, by decide,
    objective_value_complement_invariant w_example [0, 1, 0, 1]
      (by decide) (by decide) (by decide) (by decide)⟩

/-- C8.  For a binary assignment the number-partition objective equals the
square of the difference between the sum of the numbers assigned bit 0 and
the sum of the numbers assigned bit 1. -/
theorem partition_value_eq_sq_subset_diff (x number_list : List ℤ)
    (hlen : x.length = number_list.length)
    (hbin : ∀ b ∈ x, b = 0 ∨ b = 1) :
    partition_value x number_list =
      (subset_sum 0 x number_list - subset_sum 1 x number_list) ^ 2 := by
  unfold partition_value subset_sum
  rw [← Finset.sum_sub_distrib]
  congr 1
  apply Finset.sum_congr rfl
  intro i hi
  have hx := hbin (x.getD i 0)
    (getD_mem x i (by rw [hlen]; exact Finset.mem_range.mp hi))
  rcases hx with h | h <;> rw [h] <;> norm_num

/-- C8 witness: the identity applied to the concrete assignment `[0, 1]`
and number list `[3, 5]`. -/
theorem partition_value_eq_sq_subset_diff_witness :
    ([(0 : ℤ), 1].length = [(3 : ℤ), 5].length) ∧
    (∀ b ∈ [(0 : ℤ), 1], b = 0 ∨ b = 1) ∧
    partition_value [0, 1] [3, 5] =
      (subset_sum 0 [0, 1] [3, 5] - subset_sum 1 [0, 1] [3, 5]) ^ 2 :=
  ⟨rfl, by decide, partition_value_eq_sq_subset_diff [0, 1] [3, 5] rfl (by decide)⟩

/-- C7.  When the optional `ClassicalCPLEX` solver is not installed, the
raised import error is caught locally by the notebook's try/except and the
cell only prints the message; the surrounding solver cells still run, so the
notebook completes with all three cells instead of failing. -/
theorem cplex_unavailable_is_skipped_not_fatal :
    partition_notebook_run false =
      [SolverOutcome.ran "NumPyMinimumEigensolver",
       SolverOutcome.skippedMsg "No module named cplex",
       SolverOutcome.ran "VQE"] ∧
    ∀ avail : Bool,
      SolverOutcome.ran "NumPyMinimumEigensolver" ∈ partition_notebook_run avail ∧
      SolverOutcome.ran "VQE" ∈ partition_notebook_run avail := by
  refine ⟨rfl, ?_⟩
  intro avail
  cases avail <;> exact ⟨by decide, by decide⟩

set_option maxRecDepth 40000

set_option maxHeartbeats 4000000 in
/-- C6.  On the number list `[1, 3, 4, 7, 10, 13, 15, 16]` the
unconstrained brute force returns `1`, which is the exact minimum of the
number-partition objective over all `2 ^ 8` assignments: no assignment does
better (the total is odd, so no perfect split exists) and the assignment
`[0, 1, 0, 0, 0, 0, 1, 1]` achieves subset sums `35` and `34`, the least
positive difference. -/
theorem partition_brute_force_sample_exact :
    partition_brute_force sample_numbers = some 1 ∧
    (∀ i < 2 ^ 8, 1 ≤ partition_value (bitfield i 8) sample_numbers) ∧
    partition_value [0, 1, 0, 0, 0, 0, 1, 1] sample_numbers = 1 := by
  refine ⟨?_, ?_, by decide⟩
  · have h1 : ((List.range 128).map
        (fun i => partition_value (bitfield i 8) sample_numbers)).min? = some 1 := by decide
    have h2 : ((List.range 128).map
        (fun i => partition_value (bitfield (128 + i) 8) sample_numbers)).min? = some 1 := by
      decide
    have hsplit :
        partition_brute_force sample_numbers =
          (((List.range 128).map (fun i => partition_value (bitfield i 8) sample_numbers)) ++
            ((List.range 128).map
              (fun i => partition_value (bitfield (128 + i) 8) sample_numbers))).min? := by
      unfold partition_brute_force
      rw [List.map_map]
      show ((List.range (2 ^ 8)).map
        (fun i => partition_value (bitfield i 8) sample_numbers)).min? = _
      rw [show (2 : ℕ) ^ 8 = 128 + 128 by norm_num, List.range_add, List.map_append,
        List.map_map]
      rfl
    rw [hsplit, min?_append_optMin, h1, h2]
    rfl
  · intro i hi
    have h3 : ∀ j < 128, 1 ≤ partition_value (bitfield j 8) sample_numbers := by decide
    have h4 : ∀ j < 128, 1 ≤ partition_value (bitfield (128 + j) 8) sample_numbers := by decide
    have hi' : i < 256 := by norm_num at hi; exact hi
    rcases Nat.lt_or_ge i 128 with h | h
    · exact h3 i h
    · have heq : i = 128 + (i - 128) := by omega
      rw [heq]
      exact h4 (i - 128) (by omega)

theorem bitfield_length (i L : ℕ) : (bitfield i L).length = L := by
  unfold bitfield
  rw [List.length_map, List.length_range]

theorem ones_digit (m j : ℕ) : (2 ^ m - 1) / 2 ^ j % 2 = if j < m then 1 else 0 := by
  have ht := Nat.testBit_two_pow_sub_one m j
  rw [Nat.testBit_to_div_mod] at ht
  have hlt : (2 ^ m - 1) / 2 ^ j % 2 < 2 := Nat.mod_lt _ (by norm_num)
  by_cases h : j < m
  · rw [if_pos h]
    exact of_decide_eq_true (by rw [ht]; exact decide_eq_true h)
  · rw [if_neg h]
    have hne := of_decide_eq_false (by rw [ht]; exact decide_eq_false h)
    omega

theorem count_nonzero_bitfield_ones (m n : ℕ) (h : m ≤ n) :
    count_nonzero (bitfield (2 ^ m - 1) n) = m := by
  unfold count_nonzero bitfield
  rw [List.filter_map, List.length_map, ← List.countP_eq_length_filter]
  have hpred : ∀ k ∈ List.range n,
      ((fun b : ℤ => b != 0) ∘
        fun k => (((2 ^ m - 1) / 2 ^ (n - 1 - k) % 2 : ℕ) : ℤ)) k
        = decide (n - m ≤ k) := by
    intro k hk
    have hk' : k < n := List.mem_range.mp hk
    simp only [Function.comp]
    rw [ones_digit m (n - 1 - k)]
    by_cases hc : n - 1 - k < m
    · rw [if_pos hc]
      have hle : n - m ≤ k := by omega
      simp [hle]
    · rw [if_neg hc]
      have hle : ¬ n - m ≤ k := by omega
      simp [hle]
  rw [List.countP_congr (fun a ha => by rw [hpred a ha])]
  obtain ⟨d, rfl⟩ : ∃ d, n = d + m := ⟨n - m, by omega⟩
  simp only [Nat.add_sub_cancel]
  rw [List.range_add, List.countP_append]
  have hz : (List.range d).countP (fun k => decide (d ≤ k)) = 0 := by
    apply List.countP_eq_zero.mpr
    intro a ha
    have haa : a < d := List.mem_range.mp ha
    simp only [decide_eq_true_eq]
    omega
  rw [hz, Nat.zero_add, List.countP_eq_length.mpr]
  · rw [List.length_map, List.length_range]
  · intro a ha
    obtain ⟨j, hj, rfl⟩ := List.mem_map.mp ha
    exact decide_eq_true (by omega)

/-- C10.  For every even `n ≥ 2` the brute-force Exact Solver returns a
finite value rather than its `np.inf` sentinel: the bit string of
`2 ^ (n / 2) - 1` is a balanced candidate among the `2 ^ n` enumerated, every
candidate produced has length exactly `n`, and the tracked minimum is
therefore updated at least once. -/
theorem brute_force_even_returns_finite (w : List (List ℤ)) (n : ℕ)
    (h2 : 2 ≤ n) (heven : n % 2 = 0) :
    (∃ v, brute_force w n = some v) ∧ ∀ i < 2 ^ n, (bitfield i n).length = n := by
  constructor
  · rw [brute_force_eq_min]
    have hmem : bitfield (2 ^ (n / 2) - 1) n ∈ balanced_candidates n := by
      unfold balanced_candidates
      rw [List.mem_filter]
      refine ⟨List.mem_map.mpr ⟨2 ^ (n / 2) - 1, List.mem_range.mpr ?_, rfl⟩, ?_⟩
      · have hp1 : (2 : ℕ) ^ (n / 2) ≤ 2 ^ n :=
          Nat.pow_le_pow_right (by norm_num) (Nat.div_le_self n 2)
        have hp2 : (1 : ℕ) ≤ 2 ^ (n / 2) := Nat.one_le_two_pow
        omega
      · rw [count_nonzero_bitfield_ones (n / 2) n (Nat.div_le_self n 2)]
        simp only [beq_iff_eq]
        omega
    have hsome := List.isSome_min?_of_mem
      (List.mem_map_of_mem (fun c => objective_value c w) hmem)
    exact Option.isSome_iff_exists.mp hsome
  · intro i _
    exact bitfield_length i n

/-- C10 witness: the theorem applied to the empty weight matrix and `n = 2`. -/
theorem brute_force_even_returns_finite_witness :
    (2 ≤ 2 ∧ 2 % 2 = 0) ∧
    ((∃ v, brute_force ([] : List (List ℤ)) 2 = some v) ∧
      ∀ i < 2 ^ 2, (bitfield i 2).length = 2) :=
  ⟨by decide, brute_force_even_returns_finite [] 2 (by decide) (by decide)⟩
